import Mathlib

/-
Shallow embedding of the SCIPACK generator engine (src/random/generator_sisd.c)
and timing engine (src/timing/timer.c, benchmark/benchmarks.c).

Machine integers are modelled as Nat with explicit reduction modulo 2^64 at
every operation that can overflow in C (multiplication, addition, left shift).
Bitwise xor, and, or, and right shift of values below 2^64 cannot overflow and
are taken directly on Nat.
-/

/-- 2^64, the modulus of the uint64_t arithmetic used throughout the module. -/
def U64 : Nat := 2 ^ 64

/-- uint64_t subtraction a - b (two-complement wraparound). -/
def u64sub (a b : Nat) : Nat := (a + (U64 - b % U64)) % U64

/-- Bit length of x computed with structural fuel; fuel 64 is exact for every
value below 2^64. -/
def bitlenFuel : Nat → Nat → Nat
  | 0, _ => 0
  | f + 1, x => if x = 0 then 0 else bitlenFuel f (x / 2) + 1

/-- Bit length of a 64-bit value (position of the highest set bit plus one). -/
def bitlen (x : Nat) : Nat := bitlenFuel 64 x

/-- Model of __builtin_clzll for a nonzero 64-bit argument: the number of
leading zero bits, 64 - bitlen x.  The C builtin is undefined at x = 0; this
total model returns 64 there but no theorem relies on that value. -/
def clzll (x : Nat) : Nat := 64 - bitlen x

/-- Model of __builtin_ctzll for a nonzero 64-bit argument: number of trailing
zero bits, computed with structural fuel 64. -/
def ctzllFuel : Nat → Nat → Nat
  | 0, _ => 0
  | f + 1, x => if x = 0 ∨ x % 2 = 1 then 0 else ctzllFuel f (x / 2) + 1

/-- Model of __builtin_ctzll for a nonzero 64-bit argument. -/
def ctzll (x : Nat) : Nat := ctzllFuel 64 x

/-- Hash, generator_sisd.c lines 37-50: the splitmix64 finalizer used as the
seed mixing function.  The C function overwrites its argument and returns the
new value; the model returns that value. -/
def Hash (value : Nat) : Nat :=
  let i1 := value ^^^ (value >>> 30)
  let i2 := (i1 * 0xbf58476d1ce4e5b9) % U64
  let i3 := i2 ^^^ (i2 >>> 27)
  let i4 := (i3 * 0x94d049bb133111eb) % U64
  i4 ^^^ (i4 >>> 31)

/-- RdRandRetry, generator_sisd.c lines 63-74.  The hardware rdrand source is
modelled as an oracle from invocation index to an optional 64-bit word (none
models instruction underflow).  Returns the drawn word together with the next
unused oracle position, or the error code SPK_ERROR_RDRAND = 4 after limit
failed attempts. -/
def RdRandRetry (hw : Nat → Option Nat) : Nat → Nat → Except Nat (Nat × Nat)
  | _, 0 => .error 4
  | pos, Nat.succ lim =>
    match hw pos with
    | some v => .ok (v, pos + 1)
    | none => RdRandRetry hw (pos + 1) lim

/-- struct pcg64i, generator_sisd.c lines 109-113. -/
structure pcg64i where
  state : Nat
  increment : Nat
deriving Repr, DecidableEq

/-- The permutation step of NextPCG64i, generator_sisd.c lines 222-227,
computed from the current (pre-advance) state. -/
def pcgPermute (state : Nat) : Nat :=
  let p1 := state >>> 59
  let p2 := p1 + 5
  let p3 := state >>> p2
  let p4 := p3 ^^^ state
  let p5 := (p4 * 0xAEF17502108EF2D9) % U64
  p5 ^^^ (p5 >>> 43)

/-- The state update of NextPCG64i, generator_sisd.c line 230: the LCG
advance state * 0x5851F42D4C957F2D + increment (mod 2^64). -/
def pcgAdvance (g : pcg64i) : pcg64i :=
  { g with state := (g.state * 0x5851F42D4C957F2D + g.increment) % U64 }

/-- NextPCG64i, generator_sisd.c lines 214-237: fill n words, each the
permutation of the pre-advance state, advancing the state once per word. -/
def NextPCG64i : pcg64i → Nat → List Nat × pcg64i
  | g, 0 => ([], g)
  | g, n + 1 =>
    let permuted_state := pcgPermute g.state
    let g1 := pcgAdvance g
    let r := NextPCG64i g1 n
    (permuted_state :: r.1, r.2)

/-- n-fold iterate of the pcg64i state advance. -/
def pcgIter : Nat → pcg64i → pcg64i
  | 0, g => g
  | n + 1, g => pcgIter n (pcgAdvance g)

/-- The xorshift64 state update of NextXSH64, generator_sisd.c lines 248-250:
state ^= state << 13; state ^= state >> 7; state ^= state << 17. -/
def xshStep (s : Nat) : Nat :=
  let a := s ^^^ ((s <<< 13) % U64)
  let b := a ^^^ (a >>> 7)
  b ^^^ ((b <<< 17) % U64)

/-- NextXSH64, generator_sisd.c lines 242-256: fill n words; each emitted word
equals the post-update state. -/
def NextXSH64 : Nat → Nat → List Nat × Nat
  | s, 0 => ([], s)
  | s, n + 1 =>
    let s1 := xshStep s
    let r := NextXSH64 s1 n
    (s1 :: r.1, r.2)

/-- n-fold iterate of the xorshift64 state update. -/
def xshIter : Nat → Nat → Nat
  | 0, s => s
  | n + 1, s => xshIter n (xshStep s)

-- Basic bounds: permutation and step outputs stay below 2^64.

theorem shiftRight_le_self (x k : Nat) : x >>> k ≤ x := by
  rw [Nat.shiftRight_eq_div_pow]
  exact Nat.div_le_self _ _

theorem pcgPermute_lt (state : Nat) : pcgPermute state < U64 := by
  unfold pcgPermute U64
  refine Nat.xor_lt_two_pow ?_ ?_
  · exact Nat.mod_lt _ (by norm_num)
  · exact Nat.lt_of_le_of_lt (shiftRight_le_self _ _)
      (Nat.mod_lt _ (by norm_num))

theorem xshStep_lt (s : Nat) (h : s < U64) : xshStep s < U64 := by
  unfold xshStep U64
  have hmod : ∀ x : Nat, x % 2 ^ 64 < 2 ^ 64 := fun x => Nat.mod_lt _ (by norm_num)
  have ha : s ^^^ ((s <<< 13) % U64) < 2 ^ 64 :=
    Nat.xor_lt_two_pow (by simpa [U64] using h) (by simpa [U64] using hmod _)
  have hb : s ^^^ ((s <<< 13) % U64) ^^^ ((s ^^^ ((s <<< 13) % U64)) >>> 7) < 2 ^ 64 :=
    Nat.xor_lt_two_pow ha (Nat.lt_of_le_of_lt (shiftRight_le_self _ _) ha)
  exact Nat.xor_lt_two_pow hb (hmod _)

/-
RandPCG64i / RandXSH64, generator_sisd.c lines 264-322: bounded integers by
rejection sampling.  The inner do-while loop is modelled with explicit fuel
(none models a run of the loop longer than the fuel allows); every value the
C code writes to dest corresponds to a some-result here.
-/

/-- The do-while rejection loop body of RandPCG64i, lines 280-285: draw one
word with NextPCG64i, mask it, accept it if it is at most ceil. -/
def randLoopPCG (mask ceil : Nat) : Nat → pcg64i → Option (Nat × pcg64i)
  | 0, _ => none
  | fuel + 1, g =>
    let r := NextPCG64i g 1
    let output := r.1.headD 0 &&& mask
    if output ≤ ceil then some (output, r.2) else randLoopPCG mask ceil fuel r.2

/-- The outer for-loop of RandPCG64i, lines 278-288: one accepted draw per
destination slot, emitting accepted + min (uint64_t addition). -/
def randFillPCG (mask ceil mn fuel : Nat) : Nat → pcg64i → Option (List Nat × pcg64i)
  | 0, g => some ([], g)
  | n + 1, g =>
    match randLoopPCG mask ceil fuel g with
    | none => none
    | some (output, g1) =>
      match randFillPCG mask ceil mn fuel n g1 with
      | none => none
      | some (rest, gf) => some ((output + mn) % U64 :: rest, gf)

/-- RandPCG64i, generator_sisd.c lines 264-291: ceil = max - min (uint64_t),
mask = all ones shifted right by clz(ceil), then rejection sampling. -/
def RandPCG64i (fuel : Nat) (g : pcg64i) (n mn mx : Nat) : Option (List Nat × pcg64i) :=
  let ceil := u64sub mx mn
  let mask := (U64 - 1) >>> clzll ceil
  randFillPCG mask ceil mn fuel n g

/-- The do-while rejection loop body of RandXSH64, lines 311-316. -/
def randLoopXSH (mask ceil : Nat) : Nat → Nat → Option (Nat × Nat)
  | 0, _ => none
  | fuel + 1, s =>
    let r := NextXSH64 s 1
    let outp := r.1.headD 0 &&& mask
    if outp ≤ ceil then some (outp, r.2) else randLoopXSH mask ceil fuel r.2

/-- The outer for-loop of RandXSH64, lines 309-319. -/
def randFillXSH (mask ceil mn fuel : Nat) : Nat → Nat → Option (List Nat × Nat)
  | 0, s => some ([], s)
  | n + 1, s =>
    match randLoopXSH mask ceil fuel s with
    | none => none
    | some (outp, s1) =>
      match randFillXSH mask ceil mn fuel n s1 with
      | none => none
      | some (rest, sf) => some ((outp + mn) % U64 :: rest, sf)

/-- RandXSH64, generator_sisd.c lines 295-322. -/
def RandXSH64 (fuel : Nat) (s : Nat) (n mn mx : Nat) : Option (List Nat × Nat) :=
  let ceil := u64sub mx mn
  let mask := (U64 - 1) >>> clzll ceil
  randFillXSH mask ceil mn fuel n s

theorem u64sub_eq_sub (a b : Nat) (hba : b ≤ a) (ha : a < U64) :
    u64sub a b = a - b := by
  unfold u64sub U64 at *
  omega

theorem randLoopPCG_le (mask ceil fuel : Nat) (g : pcg64i) (v : Nat) (g1 : pcg64i)
    (h : randLoopPCG mask ceil fuel g = some (v, g1)) : v ≤ ceil := by
  induction fuel generalizing g with
  | zero => simp [randLoopPCG] at h
  | succ fuel ih =>
    unfold randLoopPCG at h
    dsimp only at h
    split at h
    next hc =>
      simp only [Option.some.injEq, Prod.mk.injEq] at h
      exact h.1 ▸ hc
    next hc => exact ih _ h

theorem randLoopXSH_le (mask ceil fuel : Nat) (s v s1 : Nat)
    (h : randLoopXSH mask ceil fuel s = some (v, s1)) : v ≤ ceil := by
  induction fuel generalizing s with
  | zero => simp [randLoopXSH] at h
  | succ fuel ih =>
    unfold randLoopXSH at h
    dsimp only at h
    split at h
    next hc =>
      simp only [Option.some.injEq, Prod.mk.injEq] at h
      exact h.1 ▸ hc
    next hc => exact ih _ h

theorem randFillPCG_mem (mask ceil mn fuel : Nat) :
    ∀ (n : Nat) (g : pcg64i) (outs : List Nat) (gf : pcg64i),
      randFillPCG mask ceil mn fuel n g = some (outs, gf) →
      ∀ x ∈ outs, ∃ v, v ≤ ceil ∧ x = (v + mn) % U64 := by
  intro n
  induction n with
  | zero =>
    intro g outs gf h x hx
    simp [randFillPCG] at h
    rw [h.1] at hx
    simp at hx
  | succ n ih =>
    intro g outs gf h x hx
    unfold randFillPCG at h
    cases hl : randLoopPCG mask ceil fuel g with
    | none => rw [hl] at h; simp at h
    | some p =>
      obtain ⟨v, g1⟩ := p
      rw [hl] at h
      dsimp only at h
      cases hr : randFillPCG mask ceil mn fuel n g1 with
      | none => rw [hr] at h; simp at h
      | some q =>
        obtain ⟨rest, gf1⟩ := q
        rw [hr] at h
        dsimp only at h
        simp only [Option.some.injEq, Prod.mk.injEq] at h
        rw [← h.1] at hx
        rcases List.mem_cons.mp hx with hx1 | hx2
        · exact ⟨v, randLoopPCG_le mask ceil fuel g v g1 hl, hx1⟩
        · exact ih g1 rest gf1 hr x hx2

theorem randFillXSH_mem (mask ceil mn fuel : Nat) :
    ∀ (n s : Nat) (outs : List Nat) (sf : Nat),
      randFillXSH mask ceil mn fuel n s = some (outs, sf) →
      ∀ x ∈ outs, ∃ v, v ≤ ceil ∧ x = (v + mn) % U64 := by
  intro n
  induction n with
  | zero =>
    intro s outs sf h x hx
    simp [randFillXSH] at h
    rw [h.1] at hx
    simp at hx
  | succ n ih =>
    intro s outs sf h x hx
    unfold randFillXSH at h
    cases hl : randLoopXSH mask ceil fuel s with
    | none => rw [hl] at h; simp at h
    | some p =>
      obtain ⟨v, s1⟩ := p
      rw [hl] at h
      dsimp only at h
      cases hr : randFillXSH mask ceil mn fuel n s1 with
      | none => rw [hr] at h; simp at h
      | some q =>
        obtain ⟨rest, sf1⟩ := q
        rw [hr] at h
        dsimp only at h
        simp only [Option.some.injEq, Prod.mk.injEq] at h
        rw [← h.1] at hx
        rcases List.mem_cons.mp hx with hx1 | hx2
        · exact ⟨v, randLoopXSH_le mask ceil fuel s v s1 hl, hx1⟩
        · exact ih s1 rest sf1 hr x hx2

/-- C2: for min <= max (including the zero-width case min = max), every value
that RandPCG64i or RandXSH64 writes to the destination buffer lies in
[min, max] inclusive.  At min = max the C mask computation evaluates
__builtin_clzll(0), whose result is undefined, so the second pair of
conjuncts quantifies over every possible mask value: the do-while acceptance
test output <= ceil forces the bound whatever the undefined mask turns out
to be. -/
theorem rand_bounds_inclusive (fuel n mn mx : Nat) (g : pcg64i) (s : Nat)
    (outsP : List Nat) (gf : pcg64i) (outsX : List Nat) (sf : Nat)
    (h1 : mn ≤ mx) (h2 : mx < U64)
    (hP : RandPCG64i fuel g n mn mx = some (outsP, gf))
    (hX : RandXSH64 fuel s n mn mx = some (outsX, sf)) :
    ((∀ x ∈ outsP, mn ≤ x ∧ x ≤ mx) ∧ (∀ x ∈ outsX, mn ≤ x ∧ x ≤ mx)) ∧
    (∀ mask fuel2 n2 (g2 : pcg64i) outs2 gf2,
        randFillPCG mask (u64sub mx mn) mn fuel2 n2 g2 = some (outs2, gf2) →
        ∀ x ∈ outs2, mn ≤ x ∧ x ≤ mx) ∧
    (∀ mask fuel2 n2 s2 outs2 sf2,
        randFillXSH mask (u64sub mx mn) mn fuel2 n2 s2 = some (outs2, sf2) →
        ∀ x ∈ outs2, mn ≤ x ∧ x ≤ mx) := by
  have hceil : u64sub mx mn = mx - mn := u64sub_eq_sub mx mn h1 h2
  have corePCG : ∀ mask fuel2 n2 (g2 : pcg64i) outs2 gf2,
      randFillPCG mask (u64sub mx mn) mn fuel2 n2 g2 = some (outs2, gf2) →
      ∀ x ∈ outs2, mn ≤ x ∧ x ≤ mx := by
    intro mask fuel2 n2 g2 outs2 gf2 hfill x hx
    obtain ⟨v, hv, hxv⟩ :=
      randFillPCG_mem mask (u64sub mx mn) mn fuel2 n2 g2 outs2 gf2 hfill x hx
    rw [hceil] at hv
    have hlt : v + mn < U64 := by omega
    rw [hxv, Nat.mod_eq_of_lt hlt]
    omega
  have coreXSH : ∀ mask fuel2 n2 s2 outs2 sf2,
      randFillXSH mask (u64sub mx mn) mn fuel2 n2 s2 = some (outs2, sf2) →
      ∀ x ∈ outs2, mn ≤ x ∧ x ≤ mx := by
    intro mask fuel2 n2 s2 outs2 sf2 hfill x hx
    obtain ⟨v, hv, hxv⟩ :=
      randFillXSH_mem mask (u64sub mx mn) mn fuel2 n2 s2 outs2 sf2 hfill x hx
    rw [hceil] at hv
    have hlt : v + mn < U64 := by omega
    rw [hxv, Nat.mod_eq_of_lt hlt]
    omega
  exact ⟨⟨corePCG _ _ _ _ _ _ hP, coreXSH _ _ _ _ _ _ hX⟩, corePCG, coreXSH⟩

/-- Witness for C2: concrete instantiation at min 0, max 1, one output word,
checked by evaluation. -/
theorem rand_bounds_inclusive_witness :
    (0 : Nat) ≤ 1 ∧ (1 : Nat) < U64 ∧
    RandPCG64i 1 ⟨0, 1⟩ 1 0 1 = some ([0], ⟨1, 1⟩) ∧
    RandXSH64 1 1 1 0 1 = some ([1], 1082269761) ∧
    ((∀ x ∈ [(0 : Nat)], 0 ≤ x ∧ x ≤ 1) ∧ (∀ x ∈ [(1 : Nat)], 0 ≤ x ∧ x ≤ 1)) :=
  ⟨by decide, by decide, by rfl, by rfl,
    (rand_bounds_inclusive 1 1 0 1 ⟨0, 1⟩ 1 [0] ⟨1, 1⟩ [1] 1082269761
      (by decide) (by decide) (by rfl) (by rfl)).1⟩

theorem pcgPermute_and_full (s : Nat) :
    pcgPermute s &&& (U64 - 1) = pcgPermute s := by
  have h1 : pcgPermute s &&& (U64 - 1) = pcgPermute s % U64 := by
    unfold U64
    exact Nat.and_pow_two_sub_one_eq_mod _ 64
  rw [h1, Nat.mod_eq_of_lt (pcgPermute_lt _)]

theorem randLoopPCG_full (fuel : Nat) (g : pcg64i) :
    randLoopPCG (U64 - 1) (U64 - 1) (fuel + 1) g =
      some (pcgPermute g.state, pcgAdvance g) := by
  unfold randLoopPCG
  dsimp only
  have hnext : NextPCG64i g 1 = ([pcgPermute g.state], pcgAdvance g) := rfl
  rw [hnext]
  dsimp only [List.headD]
  rw [pcgPermute_and_full]
  rw [if_pos (Nat.le_of_lt_succ (by
    have := pcgPermute_lt g.state
    omega))]

/-- C3: with min = 0 and max = 2^64 - 1 the mask is all ones and no draw is
ever rejected, so for every generator state and count n the words produced by
RandPCG64i equal, word for word (and with the same final state), the words
produced by NextPCG64i from an identical state. -/
theorem rand_full_range_eq_next (fuel n : Nat) (g : pcg64i) :
    RandPCG64i (fuel + 1) g n 0 (U64 - 1) = some (NextPCG64i g n) := by
  unfold RandPCG64i
  have hceil : u64sub (U64 - 1) 0 = U64 - 1 := by
    unfold u64sub U64
    norm_num
  have hmask : (U64 - 1) >>> clzll (U64 - 1) = U64 - 1 := by decide
  rw [hceil]
  dsimp only
  rw [hmask]
  induction n generalizing g with
  | zero => rfl
  | succ n ih =>
    unfold randFillPCG
    rw [randLoopPCG_full fuel g]
    dsimp only
    rw [ih (pcgAdvance g)]
    dsimp only
    have hout : (pcgPermute g.state + 0) % U64 = pcgPermute g.state := by
      rw [Nat.add_zero, Nat.mod_eq_of_lt (pcgPermute_lt _)]
    rw [hout]
    rfl

/-
Nonzero preservation of the avalanche hash and the xorshift update, used for
the Xorshift64 zero-fixed-point invariant.
-/

theorem xor_shr_eq_zero (x k : Nat) (hk : 1 ≤ k) (h : x ^^^ (x >>> k) = 0) :
    x = 0 := by
  have hx : x = x >>> k := Nat.xor_eq_zero.mp h
  by_contra hne
  have hlt : x >>> k < x := by
    rw [Nat.shiftRight_eq_div_pow]
    exact Nat.div_lt_self (Nat.pos_of_ne_zero hne)
      (Nat.one_lt_two_pow (by omega))
  omega

theorem mul_odd_mod_eq_zero (x c : Nat) (hc : c % 2 = 1) (hx : x < U64)
    (h : (x * c) % U64 = 0) : x = 0 := by
  have hd : U64 ∣ x * c := Nat.dvd_of_mod_eq_zero h
  have hcop : Nat.Coprime U64 c := by
    apply Nat.Coprime.pow_left
    exact Nat.coprime_two_left.mpr (Nat.odd_iff.mpr hc)
  exact Nat.eq_zero_of_dvd_of_lt (hcop.dvd_of_dvd_mul_right hd) hx

theorem xor_shl_eq_zero (x k : Nat) (hk : 1 ≤ k) (hx : x < U64)
    (h : x ^^^ ((x <<< k) % U64) = 0) : x = 0 := by
  have hx2 : x = (x * 2 ^ k) % U64 := by
    have h0 := Nat.xor_eq_zero.mp h
    rwa [Nat.shiftLeft_eq] at h0
  have key : ∀ j : Nat, 2 ^ min (k * j) 64 ∣ x := by
    intro j
    induction j with
    | zero => simp
    | succ j ih =>
      have hstep : 2 ^ (min (k * j) 64 + k) ∣ x * 2 ^ k := by
        rw [pow_add]
        exact mul_dvd_mul ih dvd_rfl
      have hle : min (k * (j + 1)) 64 ≤ min (k * j) 64 + k := by
        rw [Nat.mul_succ]
        omega
      have hd : 2 ^ min (k * (j + 1)) 64 ∣ x * 2 ^ k :=
        dvd_trans (pow_dvd_pow 2 hle) hstep
      have hdm : 2 ^ min (k * (j + 1)) 64 ∣ (x * 2 ^ k) % U64 := by
        have hdu : 2 ^ min (k * (j + 1)) 64 ∣ U64 :=
          pow_dvd_pow 2 (by omega)
        exact (Nat.dvd_mod_iff hdu).mpr hd
      rwa [← hx2] at hdm
  have h64 : U64 ∣ x := by
    have hj := key 64
    have hmin : min (k * 64) 64 = 64 := by
      have : 64 ≤ k * 64 := Nat.le_mul_of_pos_left 64 (by omega)
      omega
    rw [hmin] at hj
    exact hj
  exact Nat.eq_zero_of_dvd_of_lt h64 hx

theorem xshStep_ne_zero (s : Nat) (h0 : s ≠ 0) (h64 : s < U64) :
    xshStep s ≠ 0 := by
  unfold xshStep
  intro hc
  have ha_lt : s ^^^ ((s <<< 13) % U64) < U64 := by
    unfold U64 at *
    exact Nat.xor_lt_two_pow h64 (Nat.mod_lt _ (by norm_num))
  have hb_lt : s ^^^ ((s <<< 13) % U64) ^^^ ((s ^^^ ((s <<< 13) % U64)) >>> 7) < U64 := by
    unfold U64 at *
    exact Nat.xor_lt_two_pow ha_lt
      (Nat.lt_of_le_of_lt (shiftRight_le_self _ _) ha_lt)
  have hb := xor_shl_eq_zero _ 17 (by omega) hb_lt hc
  have ha := xor_shr_eq_zero _ 7 (by omega) hb
  exact h0 (xor_shl_eq_zero _ 13 (by omega) h64 ha)

theorem stage_shr_ne (x k : Nat) (hk : 1 ≤ k) (hx : x ≠ 0) :
    x ^^^ (x >>> k) ≠ 0 :=
  fun hz => hx (xor_shr_eq_zero x k hk hz)

theorem stage_shr_lt (x k : Nat) (hx : x < U64) : x ^^^ (x >>> k) < U64 := by
  unfold U64 at *
  exact Nat.xor_lt_two_pow hx (Nat.lt_of_le_of_lt (shiftRight_le_self _ _) hx)

theorem stage_mul_ne (x c : Nat) (hc : c % 2 = 1) (hx : x < U64) (hne : x ≠ 0) :
    (x * c) % U64 ≠ 0 :=
  fun hz => hne (mul_odd_mod_eq_zero x c hc hx hz)

theorem stage_mul_lt (x c : Nat) : (x * c) % U64 < U64 := by
  unfold U64
  exact Nat.mod_lt _ (by norm_num)

theorem Hash_ne_zero (seed : Nat) (h0 : seed ≠ 0) (h64 : seed < U64) :
    Hash seed ≠ 0 :=
  stage_shr_ne _ 31 (by omega)
    (stage_mul_ne _ _ (by norm_num)
      (stage_shr_lt _ 27 (stage_mul_lt _ _))
      (stage_shr_ne _ 27 (by omega)
        (stage_mul_ne _ _ (by norm_num) (stage_shr_lt _ 30 h64)
          (stage_shr_ne _ 30 (by omega) h0))))

theorem Hash_lt (seed : Nat) : Hash seed < U64 :=
  stage_shr_lt _ 31 (stage_mul_lt _ _)

theorem xshIter_ne_zero (n s : Nat) (h0 : s ≠ 0) (h64 : s < U64) :
    xshIter n s ≠ 0 := by
  induction n generalizing s with
  | zero => exact h0
  | succ n ih =>
    exact ih (xshStep s) (xshStep_ne_zero s h0 h64) (xshStep_lt s h64)

/-
Constructors NewPCG64i / NewXSH64 and the dispatcher spk_GeneratorNew,
generator_sisd.c lines 89-188, with the malloc result and the caller
out-parameter *rng made explicit.  A genSlot is the object *rng points to:
its state words (none = that uint64_t was never written) and whether the
method pointers were hooked in.  mallocOk = false models malloc failure, in
which case the C code stores the null result into *rng and returns
SPK_ERROR_STDMALLOC = 1.
-/

/-- The object a generator out-parameter points to after construction. -/
structure genSlot where
  w1 : Option Nat
  w2 : Option Nat
  hooked : Bool
deriving Repr, DecidableEq

/-- NewPCG64i, generator_sisd.c lines 117-150.  The out-parameter is
overwritten with the allocation before seeding; on the rdrand failure paths
the function returns the error with the partially initialized object still
stored in the out-parameter. -/
def NewPCG64i (mallocOk : Bool) (hw : Nat → Option Nat) (seed : Nat)
    (_prev : Option genSlot) : Nat × Option genSlot :=
  if mallocOk = false then (1, none)
  else if seed ≠ 0 then
    (0, some ⟨some (Hash seed), some (Hash (Hash seed) ||| 1), true⟩)
  else
    match RdRandRetry hw 0 10 with
    | .error e => (e, some ⟨none, none, false⟩)
    | .ok (v1, pos) =>
      match RdRandRetry hw pos 10 with
      | .error e => (e, some ⟨some v1, none, false⟩)
      | .ok (v2, _) => (0, some ⟨some v1, some (v2 ||| 1), true⟩)

/-- NewXSH64, generator_sisd.c lines 162-188. -/
def NewXSH64 (mallocOk : Bool) (hw : Nat → Option Nat) (seed : Nat)
    (_prev : Option genSlot) : Nat × Option genSlot :=
  if mallocOk = false then (1, none)
  else if seed ≠ 0 then (0, some ⟨some (Hash seed), none, true⟩)
  else
    match RdRandRetry hw 0 10 with
    | .error e => (e, some ⟨none, none, false⟩)
    | .ok (v1, _) => (0, some ⟨some v1, none, true⟩)

/-- spk_GeneratorNew, generator_sisd.c lines 89-104: dispatch on the
identifier SPK_GENERATOR_PCG64i = 0x140 or SPK_GENERATOR_XSH64 = 0x240;
any other identifier returns SPK_ERROR_ARGBOUNDS = 5 without touching the
out-parameter. -/
def spk_GeneratorNew (mallocOk : Bool) (hw : Nat → Option Nat)
    (identifier seed : Nat) (prev : Option genSlot) : Nat × Option genSlot :=
  if identifier = 0x140 then NewPCG64i mallocOk hw seed prev
  else if identifier = 0x240 then NewXSH64 mallocOk hw seed prev
  else (5, prev)

/-- A hardware random source whose every invocation underflows. -/
def hwNone : Nat → Option Nat := fun _ => none

/-- C4: for every pair of hardware oracles, every pair of prior out-parameter
values and every non-zero seed, the two constructed generators are identical
and fully determined by the seed alone (state = Hash(seed), pcg increment =
Hash(Hash(seed)) with the low bit forced), so the construction never consults
the hardware random source and identical call sequences on the two resulting
generators produce byte-identical outputs. -/
theorem generator_seed_determinism (hw1 hw2 : Nat → Option Nat)
    (prev1 prev2 : Option genSlot) (seed : Nat) (hs : seed ≠ 0) :
    NewPCG64i true hw1 seed prev1 = NewPCG64i true hw2 seed prev2 ∧
    NewXSH64 true hw1 seed prev1 = NewXSH64 true hw2 seed prev2 ∧
    NewPCG64i true hw1 seed prev1 =
      (0, some ⟨some (Hash seed), some (Hash (Hash seed) ||| 1), true⟩) ∧
    NewXSH64 true hw1 seed prev1 = (0, some ⟨some (Hash seed), none, true⟩) := by
  unfold NewPCG64i NewXSH64
  simp [hs]

/-- Witness for C4 at seed 1 with two different oracles. -/
theorem generator_seed_determinism_witness :
    (1 : Nat) ≠ 0 ∧
    NewPCG64i true hwNone 1 none = NewPCG64i true (fun i => some i) 1 none ∧
    NewXSH64 true hwNone 1 none = NewXSH64 true (fun i => some i) 1 none :=
  ⟨by decide,
    (generator_seed_determinism hwNone (fun i => some i) none none 1
      (by decide)).1,
    (generator_seed_determinism hwNone (fun i => some i) none none 1
      (by decide)).2.1⟩

/-- C8: for every non-zero 64-bit seed the deterministic seeding path leaves
the Xorshift64 state at Hash(seed), which is non-zero, and the state stays
non-zero after every number of NextXSH64 steps: the generator never reaches
the all-zero fixed point of the xorshift recurrence. -/
theorem xsh64_state_never_zero (hw : Nat → Option Nat) (seed n : Nat)
    (h0 : seed ≠ 0) (h64 : seed < U64) :
    NewXSH64 true hw seed none = (0, some ⟨some (Hash seed), none, true⟩) ∧
    xshIter n (Hash seed) ≠ 0 := by
  constructor
  · unfold NewXSH64
    simp [h0]
  · exact xshIter_ne_zero n (Hash seed) (Hash_ne_zero seed h0 h64) (Hash_lt seed)

/-- Witness for C8 at seed 1 after 5 steps. -/
theorem xsh64_state_never_zero_witness :
    (1 : Nat) ≠ 0 ∧ (1 : Nat) < U64 ∧
    (NewXSH64 true hwNone 1 none = (0, some ⟨some (Hash 1), none, true⟩) ∧
      xshIter 5 (Hash 1) ≠ 0) :=
  ⟨by decide, by decide, xsh64_state_never_zero hwNone 1 5 (by decide) (by decide)⟩

/-- C10: with seed 0, a successful allocation and a hardware random source
that underflows on all ten retries, spk_GeneratorNew returns the rdrand error
code 4 while the caller out-parameter has already been overwritten with the
partially initialized generator object whose state words were never assigned
and whose method pointers were never hooked; the prior value of the
out-parameter (for example the null slot none) is not restored. -/
theorem generator_new_error_path_out_param (prev : Option genSlot) :
    spk_GeneratorNew true hwNone 0x140 0 prev = (4, some ⟨none, none, false⟩) ∧
    spk_GeneratorNew true hwNone 0x240 0 prev = (4, some ⟨none, none, false⟩) ∧
    (some (⟨none, none, false⟩ : genSlot) ≠ (none : Option genSlot)) :=
  ⟨by rfl, by rfl, by decide⟩

/-- C7: for every PCG64Insecure state and increment, the i-th word NextPCG64i
emits is the permutation (right shift by (state >> 59) + 5, xor with the
state, multiply by the odd constant, final xor-shift by 43) of the state
after exactly i LCG advances - the pre-advance state for that word, never the
post-advance one - and after n words the state has been advanced exactly n
times. -/
theorem next_pcg_pre_advance_permutation (n : Nat) (g : pcg64i) :
    NextPCG64i g n =
      ((List.range n).map (fun i => pcgPermute (pcgIter i g).state), pcgIter n g) := by
  induction n generalizing g with
  | zero => rfl
  | succ n ih =>
    unfold NextPCG64i
    dsimp only
    rw [ih (pcgAdvance g), List.range_succ_eq_map, List.map_cons, List.map_map]
    rfl

/-
BiasPCG64i / BiasXSH64, generator_sisd.c lines 368-461: 64-lane biased bit
generation.  The probability argument is modelled as a rational: every C
double is a rational, ldexp(p, exp) is exact (scaling by a power of two),
and the uint64_t cast truncates, so bitcode = floor(p * 2^exp).
-/

/-- One iteration of the inner combining loop, lines 394-406: the C switch
statement compares the scrutinee bitcode & (1 << (j + offset)) against the
case labels 0 and 1; any other value matches no case and leaves the
accumulator unchanged. -/
def biasSwitch (bitcode offset j acc w : Nat) : Nat :=
  match bitcode &&& (1 <<< (j + offset)) with
  | 0 => acc &&& w
  | 1 => acc ||| w
  | _ => acc

/-- The inner combining loop over the drawn buffer, j = 0 .. total-1. -/
def biasCombine (bitcode offset : Nat) : Nat → List Nat → Nat → Nat
  | _, [], acc => acc
  | j, w :: ws, acc =>
    biasCombine bitcode offset (j + 1) ws (biasSwitch bitcode offset j acc w)

/-- The outer loop of BiasPCG64i, lines 390-409: per output word, draw total
raw words and run the combining loop; the accumulator is declared outside the
outer loop (line 386) and is never reset between output words. -/
def biasLoopPCG (bitcode offset total : Nat) : Nat → pcg64i → Nat → List Nat × pcg64i
  | 0, g, _ => ([], g)
  | n + 1, g, acc =>
    let r := NextPCG64i g total
    let acc1 := biasCombine bitcode offset 0 r.1 acc
    let rest := biasLoopPCG bitcode offset total n r.2 acc1
    (acc1 :: rest.1, rest.2)

/-- BiasPCG64i, generator_sisd.c lines 368-412. -/
def BiasPCG64i (g : pcg64i) (n : Nat) (p : ℚ) (e : Int) : Except Nat (List Nat × pcg64i) :=
  if p ≤ 0 ∨ 1 ≤ p then .error 5
  else if e ≤ 0 ∨ 65 ≤ e then .error 5
  else
    let m := e.toNat
    let bc := Nat.floor (p * 2 ^ m)
    let bitcode := if bc = 0 then bc + 1 else bc
    let offset := ctzll bitcode
    let total := m - offset
    .ok (biasLoopPCG bitcode offset total n g 0)

/-- The outer loop of BiasXSH64, lines 439-458. -/
def biasLoopXSH (bitcode offset total : Nat) : Nat → Nat → Nat → List Nat × Nat
  | 0, s, _ => ([], s)
  | n + 1, s, acc =>
    let r := NextXSH64 s total
    let acc1 := biasCombine bitcode offset 0 r.1 acc
    let rest := biasLoopXSH bitcode offset total n r.2 acc1
    (acc1 :: rest.1, rest.2)

/-- BiasXSH64, generator_sisd.c lines 417-461. -/
def BiasXSH64 (s : Nat) (n : Nat) (p : ℚ) (e : Int) : Except Nat (List Nat × Nat) :=
  if p ≤ 0 ∨ 1 ≤ p then .error 5
  else if e ≤ 0 ∨ 65 ≤ e then .error 5
  else
    let m := e.toNat
    let bc := Nat.floor (p * 2 ^ m)
    let bitcode := if bc = 0 then bc + 1 else bc
    let offset := ctzll bitcode
    let total := m - offset
    .ok (biasLoopXSH bitcode offset total n s 0)

theorem biasCombine_192 (w0 w1 acc : Nat) :
    biasCombine 192 6 0 [w0, w1] acc = acc := rfl

theorem biasLoopPCG_192 (n : Nat) (g : pcg64i) :
    biasLoopPCG 192 6 2 n g 0 = (List.replicate n 0, pcgIter (2 * n) g) := by
  induction n generalizing g with
  | zero => rfl
  | succ n ih =>
    unfold biasLoopPCG
    dsimp only
    rw [show NextPCG64i g 2 =
        ([pcgPermute g.state, pcgPermute (pcgAdvance g).state],
          pcgAdvance (pcgAdvance g)) from rfl]
    rw [biasCombine_192]
    rw [ih (pcgAdvance (pcgAdvance g))]
    have hiter : pcgIter (2 * (n + 1)) g = pcgIter (2 * n) (pcgAdvance (pcgAdvance g)) := by
      have h1 : 2 * (n + 1) = 2 * n + 1 + 1 := by ring
      rw [h1]
      rfl
    rw [hiter]
    rfl

/-- C1: the claimed AND/OR folding does not happen.  At p = 3/4 with exponent
8 (bitcode 192, set bits at positions 6 and 7, offset 6, total 2) the switch
scrutinee bitcode & (1 << (j + offset)) takes the values 64 and 128, which
match neither case label 0 nor case label 1, so every iteration leaves the
accumulator untouched and BiasPCG64i emits only zero words for every
generator state and every count, while consuming 2 raw words per output
word.  Each bit lane is therefore constantly 0 instead of a Bernoulli(3/4)
outcome. -/
theorem bias_switch_bug_all_zero (g : pcg64i) (n : Nat) :
    BiasPCG64i g n (3 / 4) 8 = .ok (List.replicate n 0, pcgIter (2 * n) g) := by
  unfold BiasPCG64i
  rw [if_neg (by norm_num), if_neg (by norm_num)]
  dsimp only
  rw [show (8 : Int).toNat = 8 from rfl]
  rw [show ((3 / 4 : ℚ) * 2 ^ (8 : Nat)) = 192 by norm_num]
  rw [show (Nat.floor (192 : ℚ)) = 192 from by
    exact_mod_cast Nat.floor_natCast 192]
  rw [if_neg (by decide)]
  rw [show ctzll 192 = 6 from rfl]
  rw [show (8 : Nat) - 6 = 2 from rfl]
  rw [biasLoopPCG_192]

/-
UnidPCG64i / UnidXSH64, generator_sisd.c lines 472-502: raw words converted
to doubles by ldexp((double) w, -64).  The cast of a uint64_t to double
rounds to the nearest representable value (53-bit significand, ties to
even); ldexp then scales exactly by 2^-64.  Both steps are modelled exactly
over the rationals.
-/

/-- Round-to-nearest-even of a natural number to 53 significant bits: the
value of the C cast (double) w for w below 2^64. -/
def roundDouble53 (w : Nat) : Nat :=
  if w < 2 ^ 53 then w
  else
    let s := bitlen w - 53
    let q := w >>> s
    let r := w % 2 ^ s
    let half := 2 ^ (s - 1)
    if half < r ∨ (r = half ∧ q % 2 = 1) then (q + 1) <<< s else q <<< s

/-- Exact rational value of one unid output element: ldexp((double) w, -64). -/
def unidVal (w : Nat) : ℚ := (roundDouble53 w : ℚ) / 2 ^ 64

/-- UnidPCG64i, generator_sisd.c lines 472-485. -/
def UnidPCG64i (g : pcg64i) (n : Nat) : List ℚ × pcg64i :=
  let r := NextPCG64i g n
  (r.1.map unidVal, r.2)

/-- UnidXSH64, generator_sisd.c lines 489-502. -/
def UnidXSH64 (s : Nat) (n : Nat) : List ℚ × Nat :=
  let r := NextXSH64 s n
  (r.1.map unidVal, r.2)

theorem bitlenFuel_le (f : Nat) : ∀ x, x < 2 ^ f → bitlenFuel f x ≤ f := by
  induction f with
  | zero => intro x hx; simp [bitlenFuel]
  | succ f ih =>
    intro x hx
    unfold bitlenFuel
    split
    · omega
    · have hdiv : x / 2 < 2 ^ f := by
        rw [Nat.div_lt_iff_lt_mul (by omega)]
        rw [pow_succ] at hx
        exact hx
      exact Nat.succ_le_succ (ih _ hdiv)

theorem roundDouble53_le (w : Nat) (hw : w < U64) : roundDouble53 w ≤ U64 := by
  have hw' : w < 2 ^ 64 := by
    unfold U64 at hw
    exact hw
  unfold roundDouble53 U64
  split
  next h => omega
  next h =>
    dsimp only
    have hbl : bitlen w ≤ 64 := bitlenFuel_le 64 w hw'
    have hs64 : bitlen w - 53 ≤ 64 := by omega
    have hq : w >>> (bitlen w - 53) < 2 ^ (64 - (bitlen w - 53)) := by
      rw [Nat.shiftRight_eq_div_pow]
      rw [Nat.div_lt_iff_lt_mul (Nat.pos_pow_of_pos _ (by omega))]
      calc w < 2 ^ 64 := hw'
        _ = 2 ^ (64 - (bitlen w - 53)) * 2 ^ (bitlen w - 53) := by
            rw [← pow_add]
            congr 1
            omega
    split
    · rw [Nat.shiftLeft_eq]
      calc (w >>> (bitlen w - 53) + 1) * 2 ^ (bitlen w - 53)
          ≤ 2 ^ (64 - (bitlen w - 53)) * 2 ^ (bitlen w - 53) :=
            Nat.mul_le_mul_right _ hq
        _ = 2 ^ 64 := by
            rw [← pow_add]
            congr 1
            omega
    · rw [Nat.shiftLeft_eq, Nat.shiftRight_eq_div_pow]
      calc w / 2 ^ (bitlen w - 53) * 2 ^ (bitlen w - 53) ≤ w :=
            Nat.div_mul_le_self _ _
        _ ≤ 2 ^ 64 := le_of_lt hw'

theorem unidVal_mem_unit (w : Nat) (hw : w < U64) :
    0 ≤ unidVal w ∧ unidVal w ≤ 1 := by
  unfold unidVal
  constructor
  · positivity
  · rw [div_le_one (by positivity)]
    have h2 : roundDouble53 w ≤ 2 ^ 64 := by
      have := roundDouble53_le w hw
      unfold U64 at this
      exact this
    exact_mod_cast h2

theorem NextPCG64i_mem_lt (n : Nat) (g : pcg64i) :
    ∀ w ∈ (NextPCG64i g n).1, w < U64 := by
  induction n generalizing g with
  | zero => intro w hw; simp [NextPCG64i] at hw
  | succ n ih =>
    intro w hw
    unfold NextPCG64i at hw
    dsimp only at hw
    rcases List.mem_cons.mp hw with h1 | h2
    · rw [h1]; exact pcgPermute_lt _
    · exact ih (pcgAdvance g) w h2

theorem NextXSH64_mem_lt (n : Nat) (s : Nat) (hs : s < U64) :
    ∀ w ∈ (NextXSH64 s n).1, w < U64 := by
  induction n generalizing s with
  | zero => intro w hw; simp [NextXSH64] at hw
  | succ n ih =>
    intro w hw
    unfold NextXSH64 at hw
    dsimp only at hw
    rcases List.mem_cons.mp hw with h1 | h2
    · rw [h1]; exact xshStep_lt s hs
    · exact ih (xshStep s) (xshStep_lt s hs) w h2

/-- Counterexample for C5: from the Xorshift64 state 7650297886450228676 the
next raw word is 2^64 - 1, whose conversion to double rounds up to exactly
2^64, so the single unid output equals exactly 1.0, which is not less than
1.0. -/
theorem unid_emits_one_counterexample :
    (UnidXSH64 7650297886450228676 1).1 = [(1 : ℚ)] ∧ ¬((1 : ℚ) < 1) := by
  refine ⟨?_, by norm_num⟩
  unfold UnidXSH64
  dsimp only
  rw [show NextXSH64 7650297886450228676 1 = ([2 ^ 64 - 1], 2 ^ 64 - 1) from by decide]
  dsimp only [List.map]
  simp only [unidVal]
  rw [show roundDouble53 (2 ^ 64 - 1) = 2 ^ 64 from by decide]
  norm_num

/-- C5 (amended): every double written by unid lies in the closed interval
[0, 1]; the open upper bound fails only for raw words at distance less than
2^10 from 2^64, whose double conversion rounds up to 2^64 and yields exactly
1.0. -/
theorem unid_range_closed (g : pcg64i) (s n : Nat) (hs : s < U64) :
    (∀ x ∈ (UnidPCG64i g n).1, 0 ≤ x ∧ x ≤ 1) ∧
    (∀ x ∈ (UnidXSH64 s n).1, 0 ≤ x ∧ x ≤ 1) := by
  constructor
  · intro x hx
    unfold UnidPCG64i at hx
    dsimp only at hx
    obtain ⟨w, hwmem, hwx⟩ := List.mem_map.mp hx
    rw [← hwx]
    exact unidVal_mem_unit w (NextPCG64i_mem_lt n g w hwmem)
  · intro x hx
    unfold UnidXSH64 at hx
    dsimp only at hx
    obtain ⟨w, hwmem, hwx⟩ := List.mem_map.mp hx
    rw [← hwx]
    exact unidVal_mem_unit w (NextXSH64_mem_lt n s hs w hwmem)

/-- Witness for C5 (amended) at state 1 with one output word each. -/
theorem unid_range_closed_witness :
    (1 : Nat) < U64 ∧
    ((∀ x ∈ (UnidPCG64i ⟨0, 0⟩ 1).1, 0 ≤ x ∧ x ≤ 1) ∧
      (∀ x ∈ (UnidXSH64 1 1).1, 0 ≤ x ∧ x ≤ 1)) :=
  ⟨by decide, unid_range_closed ⟨0, 0⟩ 1 1 (by decide)⟩

/-
TimerElapsedTime, timer.c lines 119-139.  The double division
(double) cycles / (double) tsc_hz and the comparisons with 1.0 are modelled
over the rationals; at the inputs used below (cycles = 0, or cycles and
frequency both powers of two) every double operation involved is exact, so
the rational model coincides with the C double computation.
-/

/-- The while loop of TimerElapsedTime, lines 128-134: while the value is
below 1.0, multiply by 1000.0 and advance the resolution by one.  Fuel
exhaustion (none) models a loop that runs longer than any bound; the C loop
has no exit other than the value reaching 1.0. -/
def scaleLoop : Nat → ℚ → Nat → Option (ℚ × Nat)
  | 0, _, _ => none
  | fuel + 1, elapsed, resolution =>
    if elapsed < 1 then scaleLoop fuel (elapsed * 1000) (resolution + 1)
    else some (elapsed, resolution)

/-- TimerElapsedTime, timer.c lines 119-139, parametrized by the calibrated
frequency tsc_hz: elapsed = cycles / tsc_hz, starting resolution
TIMER_SECONDS = 0 (TIMER_NANOSECONDS = 3). -/
def TimerElapsedTime (fuel cycles hz : Nat) : Option (ℚ × Nat) :=
  scaleLoop fuel ((cycles : ℚ) / (hz : ℚ)) 0

theorem timer_scaleLoop_zero (fuel res : Nat) : scaleLoop fuel 0 res = none := by
  induction fuel generalizing res with
  | zero => rfl
  | succ fuel ih =>
    unfold scaleLoop
    rw [if_pos (by norm_num), zero_mul]
    exact ih (res + 1)

/-- C6: the scaling loop has no nanoseconds floor and does not always
terminate.  At cycle delta 0 the value stays 0.0 forever and the loop never
exits, whatever the frequency (so in particular resolution is incremented
past TIMER_NANOSECONDS = 3, contradicting the assertion at timer.c line
133); and at the positive input cycles = 1, hz = 2^34 (about 58 ps) the loop
multiplies by 1000 four times and exits at resolution 4, one past
nanoseconds. -/
theorem timer_elapsed_no_nanosecond_floor :
    (∀ fuel hz : Nat, TimerElapsedTime fuel 0 hz = none) ∧
    TimerElapsedTime 5 1 (2 ^ 34) = some (10 ^ 12 / 2 ^ 34, 4) ∧ (3 : Nat) < 4 := by
  refine ⟨?_, by unfold TimerElapsedTime; norm_num [scaleLoop], by decide⟩
  intro fuel hz
  unfold TimerElapsedTime
  rw [Nat.cast_zero, zero_div]
  exact timer_scaleLoop_zero fuel 0

/-
cycles_stats, benchmark/benchmarks.c lines 34-68.  qsort with the ullcmp
comparator is modelled as mergeSort with the natural order on Nat (every
comparison sort produces the same sorted copy).  The function copies the
caller array into datacpy (lines 45-47) and sorts only the copy, which the
pure model reflects; the long long casts in the deviation loop (line 59) are
exact for tick values below 2^63, within the operating range documented at
line 56.
-/

/-- The four outputs of cycles_stats. -/
structure cyclesStats where
  median : Nat
  mad : Nat
  minv : Nat
  maxv : Nat
deriving Repr, DecidableEq

/-- cycles_stats, benchmark/benchmarks.c lines 34-68: sort a copy, read
median, min and max from it, then sort the absolute deviations from the
median and read the median absolute deviation. -/
def cycles_stats (data : List Nat) : cyclesStats :=
  let datacpy := data.mergeSort (fun a b => decide (a ≤ b))
  let median := datacpy.getD (data.length / 2) 0
  let minv := datacpy.getD 0 0
  let maxv := datacpy.getD (data.length - 1) 0
  let devs := datacpy.map (fun v => ((v : Int) - (median : Int)).natAbs)
  let devs2 := devs.mergeSort (fun a b => decide (a ≤ b))
  let mad := devs2.getD (data.length / 2) 0
  ⟨median, mad, minv, maxv⟩

theorem getD_mem {l : List Nat} {i : Nat} (h : i < l.length) : l.getD i 0 ∈ l := by
  rw [List.getD_eq_getElem?_getD, List.getElem?_eq_getElem h]
  exact List.getElem_mem h

theorem getD_eq_get {l : List Nat} {i : Nat} (h : i < l.length) :
    l.getD i 0 = l.get ⟨i, h⟩ := by
  rw [List.getD_eq_getElem?_getD, List.getElem?_eq_getElem h]
  rfl

theorem sorted_getD_mono {l : List Nat} (hs : List.Sorted (· ≤ ·) l) {i j : Nat}
    (hi : i < l.length) (hj : j < l.length) (hij : i ≤ j) :
    l.getD i 0 ≤ l.getD j 0 := by
  rw [getD_eq_get hi, getD_eq_get hj]
  exact hs.rel_get_of_le (Fin.mk_le_mk.mpr hij)

unseal List.merge List.mergeSort in
/-- C9: on the sample set 1..5 the aggregator returns median 3, MAD 1, min 1
and max 5; and on every non-empty sample set the value returned as min is a
least element of the input, the value returned as max is a greatest element,
and the median (the sorted element at index N/2) is an element of the input.
The model is pure, reflecting that the C code sorts only its private copy of
the caller array. -/
theorem cycles_stats_correct :
    cycles_stats [1, 2, 3, 4, 5] = ⟨3, 1, 1, 5⟩ ∧
    ∀ l : List Nat, l ≠ [] →
      ((cycles_stats l).minv ∈ l ∧ ∀ x ∈ l, (cycles_stats l).minv ≤ x) ∧
      ((cycles_stats l).maxv ∈ l ∧ ∀ x ∈ l, x ≤ (cycles_stats l).maxv) ∧
      (cycles_stats l).median ∈ l := by
  constructor
  · rfl
  · intro l hl
    have hpos : 0 < l.length := List.length_pos.mpr hl
    unfold cycles_stats
    dsimp only
    set ds := l.mergeSort (fun a b => decide (a ≤ b)) with hds
    have hperm : List.Perm ds l := by
      rw [hds]
      exact List.mergeSort_perm l _
    have hsort : List.Sorted (· ≤ ·) ds := by
      rw [hds]
      exact List.sorted_mergeSort' l
    have hlen : ds.length = l.length := hperm.length_eq
    have h0 : 0 < ds.length := by omega
    have hlast : l.length - 1 < ds.length := by omega
    have hmid : l.length / 2 < ds.length := by
      have := Nat.div_lt_self hpos (by norm_num : (1 : Nat) < 2)
      omega
    refine ⟨⟨hperm.subset (getD_mem h0), ?_⟩, ⟨hperm.subset (getD_mem hlast), ?_⟩,
      hperm.subset (getD_mem hmid)⟩
    · intro x hx
      obtain ⟨⟨j, hj⟩, hget⟩ := List.mem_iff_get.mp (hperm.mem_iff.mpr hx)
      rw [← hget, ← getD_eq_get hj]
      exact sorted_getD_mono hsort h0 hj (Nat.zero_le j)
    · intro x hx
      obtain ⟨⟨j, hj⟩, hget⟩ := List.mem_iff_get.mp (hperm.mem_iff.mpr hx)
      rw [← hget, ← getD_eq_get hj]
      exact sorted_getD_mono hsort hj hlast (by omega)

unseal List.merge List.mergeSort in
/-- Witness for C9 applying the universally quantified part to the concrete
non-empty sample set 1..5. -/
theorem cycles_stats_correct_witness :
    ([1, 2, 3, 4, 5] : List Nat) ≠ [] ∧
    (((cycles_stats [1, 2, 3, 4, 5]).minv ∈ [1, 2, 3, 4, 5] ∧
        ∀ x ∈ [1, 2, 3, 4, 5], (cycles_stats [1, 2, 3, 4, 5]).minv ≤ x) ∧
      ((cycles_stats [1, 2, 3, 4, 5]).maxv ∈ [1, 2, 3, 4, 5] ∧
        ∀ x ∈ [1, 2, 3, 4, 5], x ≤ (cycles_stats [1, 2, 3, 4, 5]).maxv) ∧
      (cycles_stats [1, 2, 3, 4, 5]).median ∈ [1, 2, 3, 4, 5]) :=
  ⟨by decide, cycles_stats_correct.2 [1, 2, 3, 4, 5] (by decide)⟩
